import Mathlib

/-!
Verification of the Guided Hierarchical Traversal Engine of the
know-your-rights repository.

The definitions below are a shallow embedding of
`src/lib/utils/document-transformer.ts`,
`src/lib/services/traversal-state.ts` (the latest-result store and the
`LegalDocumentTraversal` class).  JavaScript objects used as string-keyed
maps are modelled as association lists with JS update semantics
(assignment to an existing key replaces the value in place), JS `number`
scores are modelled as rationals, absent/falsy optional fields as
`Option`, and the LLM oracle as an abstract function from the prompt
ingredients (previous decisions and the submitted node ids) to either a
schema-validated list of evaluations or an error.  Wall-clock timestamps
and console logging are omitted.
-/

namespace KnowYourRights

/-- Lookup in a JS object modelled as an association list: first binding wins. -/
def jsGet {α : Type} : List (String × α) → String → Option α
  | [], _ => none
  | (k, v) :: rest, key => if k = key then some v else jsGet rest key

/-- Assignment `obj[key] = v` on a JS object: replaces the value of an existing
key in place, otherwise appends a new binding (JS insertion order). -/
def jsSet {α : Type} : List (String × α) → String → α → List (String × α)
  | [], key, v => [(key, v)]
  | (k, w) :: rest, key, v =>
      if k = key then (key, v) :: rest else (k, w) :: jsSet rest key v

/-- A node of the legal document tree (`LegalNode` in `lib/types/traversal`).
The optional `metadata` bag only feeds the oracle prompt, which is abstracted
away, so it is not modelled. -/
structure LegalNode where
  id : String
  title : String
  content : String
  level : Int
  children : List String
deriving Repr, DecidableEq

/-- `LegalDocumentTree`: an id-keyed node map plus the ordered root id list. -/
structure LegalDocumentTree where
  nodes : List (String × LegalNode)
  rootNodes : List String
deriving Repr, DecidableEq

/-- `validateDocumentTree` from `document-transformer.ts`: checks that the
root list is non-empty, every root id resolves, and every child reference
resolves.  (The `!tree.nodes || !tree.rootNodes` guard is vacuous here since
both fields always exist in the embedding.) -/
def validateDocumentTree (tree : LegalDocumentTree) : Bool :=
  if tree.rootNodes.isEmpty then false
  else if !(tree.rootNodes.all fun rootId => (jsGet tree.nodes rootId).isSome) then false
  else if !(tree.nodes.all fun p =>
      p.2.children.all fun childId => (jsGet tree.nodes childId).isSome) then false
  else true

/-- One element of a flat-array raw input, with the fields the flat-array
branch of `transformRawDocument` reads.  Absent or falsy JS fields are
`none`. -/
structure RawArrayItem where
  id : Option String
  title : Option String
  name : Option String
  content : Option String
  description : Option String
  text : Option String
  level : Option Int
  children : Option (List String)
  parent : Option String
deriving Repr, DecidableEq

/-- The node id chosen for a flat-array item: `item.id || node_<index>`. -/
def flatArrayNodeId (index : Nat) (item : RawArrayItem) : String :=
  item.id.getD ("node_" ++ toString index)

/-- The `LegalNode` built from a flat-array item. -/
def nodeFromArrayItem (index : Nat) (item : RawArrayItem) : LegalNode :=
  { id := flatArrayNodeId index item
    title := item.title.getD (item.name.getD ("Node " ++ toString index))
    content := item.content.getD (item.description.getD (item.text.getD ""))
    level := item.level.getD 0
    children := item.children.getD [] }

/-- The `rawData.forEach` loop of the flat-array branch: each item is written
into the nodes object (overwriting any existing binding with the same id) and
is appended to the roots when `item.level === 0 || !item.parent`. -/
def processFlatArrayAux :
    List (Nat × RawArrayItem) → List (String × LegalNode) → List String →
      List (String × LegalNode) × List String
  | [], nodes, roots => (nodes, roots)
  | (index, item) :: rest, nodes, roots =>
      let nodeId := flatArrayNodeId index item
      let node := nodeFromArrayItem index item
      let nodes' := jsSet nodes nodeId node
      let roots' :=
        if item.level == some 0 || item.parent == none then roots ++ [nodeId]
        else roots
      processFlatArrayAux rest nodes' roots'

/-- The raw-input shapes of `transformRawDocument` that the verified claims
exercise: the already-canonical shape and the flat-array shape.  The other
branches (processed recursive format, chapters/sections, agent results, flat
object) are outside the scope of the claims settled here. -/
inductive RawDoc where
  | canonical (nodes : List (String × LegalNode)) (rootNodes : List String)
  | flatArray (items : List RawArrayItem)
deriving Repr, DecidableEq

/-- `transformRawDocument` on the modelled shapes.  A canonical input
(`rawData.nodes && rawData.rootNodes` truthy) is returned as is; a flat array
is folded in array order. -/
def transformRawDocument : RawDoc → LegalDocumentTree
  | .canonical nodes rootNodes => ⟨nodes, rootNodes⟩
  | .flatArray items =>
      let built := processFlatArrayAux items.enum [] []
      ⟨built.1, built.2⟩

/-- The process-wide state behind `setLatestTraversalResult` and
`getLatestTraversalResult` in `traversal-state.ts`: the contents of the cache
file (`none` when the file is absent or unreadable or its contents fail to
parse) and the in-process module variable `latestTraversalResult`
(initially JS `null`, modelled as `none`).  The stored result document is
abstracted to a `String`. -/
structure TraversalStateStore where
  cacheFile : Option String
  memorySlot : Option String
deriving Repr, DecidableEq

/-- `setLatestTraversalResult`: tries to write the cache file; on a write
failure (the `catch` branch, signalled here by `writeSucceeds = false`) it
stores the result in the memory slot instead and leaves the file as it was. -/
def setLatestTraversalResult (result : String) (writeSucceeds : Bool)
    (s : TraversalStateStore) : TraversalStateStore :=
  if writeSucceeds then { s with cacheFile := some result }
  else { s with memorySlot := some result }

/-- `getLatestTraversalResult`: returns the parsed cache file when readable,
otherwise falls back to the memory slot (which starts out as `null`). -/
def getLatestTraversalResult (s : TraversalStateStore) : Option String :=
  match s.cacheFile with
  | some data => some data
  | none => s.memorySlot

/-- Inner loop of one row of the `levenshteinDistance` dynamic-programming
matrix: walks the characters of `str1` together with the tail of the previous
row.  `diag` is the previous row's entry one column back, `left` the entry
just computed in the current row. -/
def levRowAux (c2 : Char) : List Char → List Nat → Nat → Nat → List Nat
  | [], _, _, _ => []
  | _ :: _, [], _, _ => []
  | c1 :: cs, p :: ps, diag, left =>
      let indicator := if c1 = c2 then 0 else 1
      let entry := min (left + 1) (min (p + 1) (diag + indicator))
      entry :: levRowAux c2 cs ps p entry

/-- One row of the DP matrix from the previous row: column 0 of row `j` is
`j` (= previous row's column 0 plus one). -/
def levRow (c2 : Char) (prev : List Nat) (s1 : List Char) : List Nat :=
  match prev with
  | [] => []
  | p0 :: ps => (p0 + 1) :: levRowAux c2 s1 ps p0 (p0 + 1)

/-- `levenshteinDistance` of the `LegalDocumentTraversal` class: the classic
row-by-row DP over the two strings; the answer is the last entry of the last
row. -/
def levenshteinDistance (str1 str2 : String) : Nat :=
  let s1 := str1.toList
  let finalRow := str2.toList.foldl (fun row c2 => levRow c2 row s1)
    (List.range (s1.length + 1))
  finalRow.getLastD 0

/-- The stop-word set of `extractNodeIdPatterns`. -/
def commonWords : List String :=
  ["the", "a", "an", "and", "or", "of", "to", "in", "for", "with", "by",
   "from", "as", "at", "on", "is", "are", "be", "been", "being", "have",
   "has", "had", "do", "does", "did", "will", "would", "could", "should",
   "may", "might", "can", "must"]

/-- Split a character list at every separator character (the behaviour of
splitting on single whitespace characters; the empty tokens a `/\\s+/` split
would merge are removed by the length filter of `keyWordsOf` anyway). -/
def splitEvery (p : Char → Bool) : List Char → List Char → List String
  | [], acc => [String.mk acc.reverse]
  | c :: cs, acc =>
      if p c then String.mk acc.reverse :: splitEvery p cs []
      else splitEvery p cs (c :: acc)

/-- The `keyWords` component of `extractNodeIdPatterns`: lower-case the id,
replace every character that is neither a word character (`[A-Za-z0-9_]`) nor
whitespace by a space, split on whitespace, and keep the words of length
greater than 2 that are not stop words. -/
def keyWordsOf (nodeId : String) : List String :=
  let cleaned := (nodeId.toList.map Char.toLower).map fun c =>
    if c.isAlphanum || c = '_' || c.isWhitespace then c else ' '
  (splitEvery Char.isWhitespace cleaned []).filter fun w =>
    2 < w.length && !(commonWords.contains w)

/-- JS `String.prototype.includes`: substring containment. -/
def strIncludes (s sub : String) : Bool :=
  s.toList.tails.any fun t => sub.toList.isPrefixOf t

/-- The per-word overlap test inside `matchesKeyPhrases`: one word contains
the other, or their Levenshtein distance is at most 1. -/
def wordsOverlap (word rWord : String) : Bool :=
  strIncludes rWord word || strIncludes word rWord
    || levenshteinDistance word rWord ≤ 1

/-- `commonKeyWords` of `matchesKeyPhrases`: the requested id's key words
that overlap with some key word of the received id. -/
def commonKeyWords (expectedNodeId receivedNodeId : String) : List String :=
  (keyWordsOf expectedNodeId).filter fun word =>
    (keyWordsOf receivedNodeId).any fun rWord => wordsOverlap word rWord

/-- Key-phrase matching strategy: the overlap ratio over the requested key
words (denominator at least 1) reaches 50%, or at least two words overlap.
The JS floating-point comparison `ratio >= 0.5` is exact at these operand
sizes, so the rational comparison is a faithful model. -/
def matchesKeyPhrases (expectedNodeId receivedNodeId : String) : Bool :=
  let common := commonKeyWords expectedNodeId receivedNodeId
  let overlapRatio : ℚ :=
    (common.length : ℚ) / (max (keyWordsOf expectedNodeId).length 1 : ℚ)
  decide (overlapRatio ≥ 1 / 2) || decide (2 ≤ common.length)

/-- The leading-digit run of an id (`nodeId.match(/^(\d+)/)`), when present. -/
def leadingNumber (s : String) : Option String :=
  let digits := s.toList.takeWhile Char.isDigit
  if digits.isEmpty then none else some (String.mk digits)

/-- JS `String.prototype.trim`: strip leading and trailing whitespace. -/
def trimChars (cs : List Char) : List Char :=
  ((cs.dropWhile Char.isWhitespace).reverse.dropWhile Char.isWhitespace).reverse

/-- Number-prefix matching strategy: both ids start with the same number, or
the received id is bare digits (`/^\\d+$/` on the trimmed id) and the
requested id starts with those digits followed by a space. -/
def matchesNumberPrefix (expectedNodeId receivedNodeId : String) : Bool :=
  (match leadingNumber expectedNodeId, leadingNumber receivedNodeId with
    | some e, some r => e = r
    | _, _ => false)
  ||
  (let t := trimChars receivedNodeId.toList
   !t.isEmpty && t.all Char.isDigit
     && (t ++ [' ']).isPrefixOf expectedNodeId.toList)

/-- Normalisation used by the fuzzy strategy: lower-case and keep only word
characters (`replace(/[^\w]/g, picked up as alphanumerics and underscore)`). -/
def normalizeId (s : String) : String :=
  String.mk ((s.toList.map Char.toLower).filter fun c => c.isAlphanum || c = '_')

/-- Fuzzy string matching strategy: containment of one normalised id in the
other (the contained one at least 5 characters long), or, for normalised ids
of at most 20 characters, Levenshtein similarity at least 0.7.  When both
normalised ids are empty the JS similarity is `1 - 0/0 = NaN` and the
comparison is false, hence the explicit guard. -/
def matchesFuzzyString (expectedNodeId receivedNodeId : String) : Bool :=
  let ne := normalizeId expectedNodeId
  let nr := normalizeId receivedNodeId
  if 5 ≤ nr.length && strIncludes ne nr then true
  else if 5 ≤ ne.length && strIncludes nr ne then true
  else if ne.length ≤ 20 && nr.length ≤ 20 then
    let distance := levenshteinDistance ne nr
    let maxLength := max ne.length nr.length
    -- similarity = 1 - distance / maxLength ≥ 0.7 ⟺ 10 * distance ≤ 3 * maxLength
    if maxLength = 0 then false else decide (10 * distance ≤ 3 * maxLength)
  else false

/-- One entry of the oracle's `nodeEvaluations` response array, together with
the `_alreadyMatched` mark that `findNodeEvaluationWithMapping` mutates onto
consumed entries (absent on a fresh response, i.e. `false`). -/
structure NodeEvaluation where
  nodeId : String
  isRelevant : Bool
  relevanceScore : ℚ
  reasoning : String
  shouldExploreChildren : Bool
  alreadyMatched : Bool := false
deriving Repr, DecidableEq

/-- The result of mapping one requested id: the position of the consumed
received entry, the entry itself, and `mappedFrom` (`none` for an exact
match, the received id for a fuzzy-strategy match), as in the source's
`{evaluation, mappedFrom}` with the entry's position made explicit. -/
structure MappingResult where
  index : Nat
  evaluation : NodeEvaluation
  mappedFrom : Option String
deriving Repr, DecidableEq

/-- The exact-match step: `evaluations.find(e => e.nodeId === expected)`,
returning the first entry with the requested id together with its position.
It does not consult `_alreadyMatched`. -/
def findExact (expectedNodeId : String) : List NodeEvaluation →
    Option (Nat × NodeEvaluation)
  | [] => none
  | e :: es =>
      if e.nodeId = expectedNodeId then some (0, e)
      else (findExact expectedNodeId es).map fun p => (p.1 + 1, p.2)

/-- The fuzzy cascade: walk the received entries in order, skip the ones
already marked `_alreadyMatched`, and on each fresh entry try number-prefix,
then key-phrase, then fuzzy string matching. -/
def findFuzzy (expectedNodeId : String) : List NodeEvaluation →
    Option (Nat × NodeEvaluation)
  | [] => none
  | e :: es =>
      if e.alreadyMatched then
        (findFuzzy expectedNodeId es).map fun p => (p.1 + 1, p.2)
      else if matchesNumberPrefix expectedNodeId e.nodeId then some (0, e)
      else if matchesKeyPhrases expectedNodeId e.nodeId then some (0, e)
      else if matchesFuzzyString expectedNodeId e.nodeId then some (0, e)
      else (findFuzzy expectedNodeId es).map fun p => (p.1 + 1, p.2)

/-- Mark the received entry at a position as consumed
(`receivedEval._alreadyMatched = true`). -/
def setMatched : List NodeEvaluation → Nat → List NodeEvaluation
  | [], _ => []
  | e :: es, 0 => { e with alreadyMatched := true } :: es
  | e :: es, n + 1 => e :: setMatched es n

/-- `findNodeEvaluationWithMapping`: exact match first (without touching the
`_alreadyMatched` marks), then the fuzzy cascade, which marks the entry it
consumes.  Returns the mapping result (if any) together with the received
list as left by the call, mirroring the source's in-place mutation. -/
def findNodeEvaluationWithMapping (expectedNodeId : String)
    (evals : List NodeEvaluation) : Option MappingResult × List NodeEvaluation :=
  match findExact expectedNodeId evals with
  | some (i, e) => (some ⟨i, e, none⟩, evals)
  | none =>
      match findFuzzy expectedNodeId evals with
      | some (i, e) => (some ⟨i, e, some e.nodeId⟩, setMatched evals i)
      | none => (none, evals)

/-- One traversal decision (`TraversalDecision`); the wall-clock `timestamp`
field is not modelled. -/
structure TraversalDecision where
  nodeId : String
  visited : Bool
  reasoning : String
  relevanceScore : ℚ
  depth : Nat
deriving Repr, DecidableEq

/-- The per-run scratch state (`TraversalContext`); the opaque
`caseInformation` payload only feeds the oracle prompt and is absorbed into
the abstract oracle.  `visitedNodes` is a JS `Set` used only through
membership tests, modelled as the list of added ids. -/
structure TraversalContext where
  visitedNodes : List String
  decisions : List TraversalDecision
  currentDepth : Nat
deriving Repr, DecidableEq

/-- The LLM oracle behind `generateObject`, abstracted to a function of the
prompt's variable ingredients for a fixed tree and case: the decisions made
so far (they supply the previously-relevant titles) and the valid node ids of
the chunk.  An `Except.error` models any invocation failure (network, quota,
schema validation). -/
def Oracle : Type :=
  List TraversalDecision → List String → Except String (List NodeEvaluation)

/-- Fallback decision for a chunk none of whose ids resolve in the tree. -/
def fallbackNotFound (ctx : TraversalContext) (nodeId : String) :
    TraversalDecision :=
  { nodeId := nodeId, visited := false
    reasoning := "Node not found in document tree"
    relevanceScore := 0, depth := ctx.currentDepth }

/-- Fallback decision emitted for every id of a chunk whose oracle
invocation failed. -/
def fallbackError (ctx : TraversalContext) (nodeId : String) :
    TraversalDecision :=
  { nodeId := nodeId, visited := false
    reasoning := "Error during batch evaluation"
    relevanceScore := 0, depth := ctx.currentDepth }

/-- Fallback decision for a requested id no reconciliation strategy could
map to a received entry. -/
def fallbackUnmapped (ctx : TraversalContext) (nodeId : String) :
    TraversalDecision :=
  { nodeId := nodeId, visited := false
    reasoning := "Could not map to batch evaluation response"
    relevanceScore := 0, depth := ctx.currentDepth }

/-- The `for (const nodeId of nodeIds)` reconciliation loop of
`evaluateBatchChunk`: each requested id is mapped through
`findNodeEvaluationWithMapping` (threading the `_alreadyMatched` marks) and
yields either a decision built from the matched evaluation or the unmappable
fallback. -/
def reconcileLoop (ctx : TraversalContext) :
    List String → List NodeEvaluation → List TraversalDecision
  | [], _ => []
  | nodeId :: rest, evals =>
      match findNodeEvaluationWithMapping nodeId evals with
      | (some r, evals') =>
          { nodeId := nodeId, visited := r.evaluation.shouldExploreChildren
            reasoning := r.evaluation.reasoning
            relevanceScore := r.evaluation.relevanceScore
            depth := ctx.currentDepth } :: reconcileLoop ctx rest evals'
      | (none, evals') => fallbackUnmapped ctx nodeId :: reconcileLoop ctx rest evals'

/-- The ids of a chunk that resolve in the document tree (the source's
`validNodes`, projected to ids; the attached node objects only feed the
prompt). -/
def validNodeIds (tree : LegalDocumentTree) (nodeIds : List String) :
    List String :=
  nodeIds.filter fun nodeId => (jsGet tree.nodes nodeId).isSome

/-- `evaluateBatchChunk`: all-invalid chunks short-circuit to not-found
fallbacks; otherwise the oracle is invoked once and either its response is
reconciled id by id or, on failure, every id of the chunk gets the error
fallback.  The `catch` makes the function total: no oracle failure escapes. -/
def evaluateBatchChunk (tree : LegalDocumentTree) (o : Oracle)
    (ctx : TraversalContext) (nodeIds : List String) : List TraversalDecision :=
  let valid := validNodeIds tree nodeIds
  if valid.isEmpty then nodeIds.map (fallbackNotFound ctx)
  else
    match o ctx.decisions valid with
    | .error _ => nodeIds.map (fallbackError ctx)
    | .ok evals => reconcileLoop ctx nodeIds evals

/-- The chunk-splitting loop of `batchEvaluateNodes`
(`for (i = 0; i < nodeIds.length; i += MAX_BATCH_SIZE) chunks.push(slice)`),
with the list length as structural fuel; each step consumes at least one
element, so the fuel never runs out on the calls below. -/
def chunkListAux (n : Nat) : Nat → List String → List (List String)
  | 0, _ => []
  | _, [] => []
  | fuel + 1, x :: xs => (x :: xs).take n :: chunkListAux n fuel ((x :: xs).drop n)

/-- Split a list into consecutive chunks of size at most `n`. -/
def chunkList (n : Nat) (l : List String) : List (List String) :=
  chunkListAux n l.length l

/-- `batchEvaluateNodes`: batches of more than `MAX_BATCH_SIZE = 5` ids are
split into sequential chunks whose results are concatenated in order (the
1-second inter-chunk pause has no bearing on the computed decisions);
smaller batches are evaluated as a single chunk. -/
def batchEvaluateNodes (tree : LegalDocumentTree) (o : Oracle)
    (ctx : TraversalContext) (nodeIds : List String) : List TraversalDecision :=
  if 5 < nodeIds.length then
    ((chunkList 5 nodeIds).map (evaluateBatchChunk tree o ctx)).flatten
  else evaluateBatchChunk tree o ctx nodeIds

/-- The mutable state of `traverseDocument`: the BFS queue of
`{nodeId, depth}` pairs, the context, and the collected relevant nodes. -/
structure LevelState where
  queue : List (String × Nat)
  ctx : TraversalContext
  relevantNodes : List LegalNode
deriving Repr, DecidableEq

/-- Processing of one decision inside the per-level loop of
`traverseDocument`: inclusion (append the node when its score strictly
exceeds the threshold and it resolves in the tree), descent (when
`decision.visited` and the node resolves and has children and the next depth
is still below `maxDepth`, enqueue the children not yet in `visitedNodes` at
depth + 1), then append the decision and mark its id visited. -/
def processDecision (tree : LegalDocumentTree) (maxDepth : Nat)
    (relevanceThreshold : ℚ) (currentDepth : Nat) (st : LevelState)
    (decision : TraversalDecision) : LevelState :=
  let rel' :=
    if relevanceThreshold < decision.relevanceScore then
      match jsGet tree.nodes decision.nodeId with
      | some node => st.relevantNodes ++ [node]
      | none => st.relevantNodes
    else st.relevantNodes
  let queue' :=
    if decision.visited then
      match jsGet tree.nodes decision.nodeId with
      | some node =>
          if 0 < node.children.length ∧ currentDepth + 1 < maxDepth then
            st.queue ++ (node.children.filter fun childId =>
              !(st.ctx.visitedNodes.contains childId)).map
                fun childId => (childId, currentDepth + 1)
          else st.queue
      | none => st.queue
    else st.queue
  { queue := queue'
    ctx := { st.ctx with
      decisions := st.ctx.decisions ++ [decision]
      visitedNodes := st.ctx.visitedNodes ++ [decision.nodeId] }
    relevantNodes := rel' }

/-- The body of one iteration of the per-level loop of `traverseDocument`:
set the context depth, batch-evaluate the ids queued at the current depth,
process every decision in order, then remove the processed depth's entries
from the queue. -/
def levelStep (tree : LegalDocumentTree) (o : Oracle)
    (relevanceThreshold : ℚ) (maxDepth : Nat) (depth : Nat)
    (st : LevelState) : LevelState :=
  let currentLevel := st.queue.filter fun q => q.2 == depth
  let ctx' := { st.ctx with currentDepth := depth }
  let levelDecisions :=
    batchEvaluateNodes tree o ctx' (currentLevel.map fun q => q.1)
  let st' := levelDecisions.foldl
    (processDecision tree maxDepth relevanceThreshold depth)
    { st with ctx := ctx' }
  { st' with queue := st'.queue.filter fun q => !(q.2 == depth) }

/-- The level-synchronous loop of `traverseDocument`
(`for (currentDepth = 0; currentDepth < maxDepth; currentDepth++)`), with
the number of remaining depths as structural fuel (`depth + rem` stays equal
to `maxDepth`).  A level with no queued nodes terminates the traversal;
otherwise one `levelStep` runs and the loop continues at the next depth. -/
def runLevels (tree : LegalDocumentTree) (o : Oracle)
    (relevanceThreshold : ℚ) (maxDepth : Nat) :
    Nat → Nat → LevelState → LevelState
  | 0, _, st => st
  | rem + 1, depth, st =>
      if (st.queue.filter fun q => q.2 == depth).isEmpty then st
      else runLevels tree o relevanceThreshold maxDepth rem (depth + 1)
        (levelStep tree o relevanceThreshold maxDepth depth st)

/-- The result of a traversal run; the oracle-generated
`finalRecommendation` prose is produced by a separate oracle call that does
not affect `relevantNodes` or `traversalPath` and is not modelled. -/
structure TraversalResult where
  relevantNodes : List LegalNode
  traversalPath : List TraversalDecision
deriving Repr, DecidableEq

/-- `traverseDocument`: start from the root ids at depth 0 and run the
level loop for at most `maxDepth` levels. -/
def traverseDocument (tree : LegalDocumentTree) (o : Oracle)
    (relevanceThreshold : ℚ) (maxDepth : Nat) : TraversalResult :=
  let st0 : LevelState :=
    { queue := tree.rootNodes.map fun id => (id, 0)
      ctx := { visitedNodes := [], decisions := [], currentDepth := 0 }
      relevantNodes := [] }
  let stF := runLevels tree o relevanceThreshold maxDepth maxDepth 0 st0
  { relevantNodes := stF.relevantNodes, traversalPath := stF.ctx.decisions }

/-! Concrete fixtures used to evaluate the embedded code on explicit inputs. -/

/-- A one-entry oracle response whose received id is the bare number `28`. -/
def cexEvals : List NodeEvaluation :=
  [{ nodeId := "28", isRelevant := true, relevanceScore := 1,
     reasoning := "R", shouldExploreChildren := true }]

/-- First of two flat-array items sharing the id `a`. -/
def dupItemA : RawArrayItem :=
  { id := some "a", title := some "First", name := none, content := some "one",
    description := none, text := none, level := some 0, children := none,
    parent := none }

/-- Second flat-array item with the same id `a` but different content. -/
def dupItemB : RawArrayItem :=
  { id := some "a", title := some "Second", name := none, content := some "two",
    description := none, text := none, level := some 0, children := none,
    parent := none }

/-- A tree whose only node lists itself as a child: a one-node cycle, so the
no-cycle structural invariant fails. -/
def cyclicTree : LegalDocumentTree :=
  ⟨[("a", { id := "a", title := "A", content := "", level := 0,
            children := ["a"] })], ["a"]⟩

/-- A single childless node. -/
def sampleNode : LegalNode :=
  { id := "a", title := "A", content := "body", level := 0, children := [] }

/-- A tree with the single root `a`. -/
def sampleTree : LegalDocumentTree := ⟨[("a", sampleNode)], ["a"]⟩

/-- An oracle that always answers with one full-score evaluation of `a`. -/
def sampleOracle : Oracle := fun _ _ =>
  .ok [{ nodeId := "a", isRelevant := true, relevanceScore := 1,
         reasoning := "r", shouldExploreChildren := false }]

/-- An oracle whose every invocation fails. -/
def failingOracle : Oracle := fun _ _ => .error "rate limit"

/-- A fresh traversal context at depth 0. -/
def initCtx : TraversalContext :=
  { visitedNodes := [], decisions := [], currentDepth := 0 }

/-- The decision the sample run produces for node `a`. -/
def sampleDecision : TraversalDecision :=
  { nodeId := "a", visited := false, reasoning := "r", relevanceScore := 1,
    depth := 0 }

/-- Twelve distinct node ids, for the chunk-size example. -/
def twelveIds : List String := (List.range 12).map fun i => "id" ++ toString i

/-! Helper lemmas about the JS-object association lists. -/

theorem jsGet_jsSet_self {α : Type} (m : List (String × α)) (k : String) (v : α) :
    jsGet (jsSet m k v) k = some v := by
  induction m with
  | nil => simp [jsSet, jsGet]
  | cons a rest ih =>
      obtain ⟨a1, a2⟩ := a
      by_cases h : a1 = k
      · simp [jsSet, h, jsGet]
      · simp [jsSet, h, jsGet, ih]

theorem jsGet_jsSet_ne {α : Type} (m : List (String × α)) (k : String) (v : α)
    (key : String) (h : key ≠ k) : jsGet (jsSet m k v) key = jsGet m key := by
  have h1 : ¬ k = key := fun e => h e.symm
  induction m with
  | nil => simp [jsSet, jsGet, h1]
  | cons a rest ih =>
      obtain ⟨a1, a2⟩ := a
      by_cases hk : a1 = k
      · have h2 : ¬ a1 = key := by rw [hk]; exact h1
        simp [jsSet, hk, jsGet, h1, h2]
      · by_cases hkey : a1 = key
        · simp [jsSet, hk, jsGet, hkey, h]
        · simp [jsSet, hk, jsGet, hkey, ih]

/-- The nodes object built by the flat-array loop: a lookup returns the node
of the last processed item whose computed id is the key, falling back to the
initial object. -/
theorem processFlatArrayAux_jsGet (ps : List (Nat × RawArrayItem))
    (nodes : List (String × LegalNode)) (roots : List String) (nid : String) :
    jsGet (processFlatArrayAux ps nodes roots).1 nid
      = ((ps.reverse.find? fun p => flatArrayNodeId p.1 p.2 == nid).map
          fun p => nodeFromArrayItem p.1 p.2).or (jsGet nodes nid) := by
  induction ps generalizing nodes roots with
  | nil => simp [processFlatArrayAux]
  | cons p rest ih =>
      obtain ⟨index, item⟩ := p
      have hsingle : jsGet (jsSet nodes (flatArrayNodeId index item)
            (nodeFromArrayItem index item)) nid
          = (([((index, item))].find? fun q => flatArrayNodeId q.1 q.2 == nid).map
              fun q => nodeFromArrayItem q.1 q.2).or (jsGet nodes nid) := by
        by_cases hid : flatArrayNodeId index item = nid
        · subst hid
          simp [List.find?, jsGet_jsSet_self]
        · have : (flatArrayNodeId index item == nid) = false := by
            simp [hid]
          simp [List.find?, this, jsGet_jsSet_ne _ _ _ _ (fun h => hid h.symm)]
      show jsGet (processFlatArrayAux rest
          (jsSet nodes (flatArrayNodeId index item) (nodeFromArrayItem index item))
          (if item.level == some 0 || item.parent == none
            then roots ++ [flatArrayNodeId index item] else roots)).1 nid = _
      rw [ih, hsingle, List.reverse_cons, List.find?_append]
      cases rest.reverse.find? fun p => flatArrayNodeId p.1 p.2 == nid <;>
        simp [Option.or]

/-! Helper lemmas about the reconciliation cascade. -/

/-- A fuzzy-cascade hit points at an entry of the received list that is not
yet marked as consumed. -/
theorem findFuzzy_eq_some (r : String) :
    ∀ (evals : List NodeEvaluation) (i : Nat) (e : NodeEvaluation),
      findFuzzy r evals = some (i, e) →
      evals[i]? = some e ∧ e.alreadyMatched = false := by
  intro evals
  induction evals with
  | nil => intro i e h; simp [findFuzzy] at h
  | cons a es ih =>
      intro i e h
      have hstep : findFuzzy r (a :: es)
          = if a.alreadyMatched then
              (findFuzzy r es).map fun p => (p.1 + 1, p.2)
            else if matchesNumberPrefix r a.nodeId then some (0, a)
            else if matchesKeyPhrases r a.nodeId then some (0, a)
            else if matchesFuzzyString r a.nodeId then some (0, a)
            else (findFuzzy r es).map fun p => (p.1 + 1, p.2) := rfl
      rw [hstep] at h
      split_ifs at h with hm h1 h2 h3
      · rcases hz : findFuzzy r es with _ | p
        · rw [hz] at h; simp at h
        · rw [hz] at h
          simp only [Option.map_some', Option.some.injEq] at h
          obtain ⟨hi, he⟩ := Prod.mk.inj h
          obtain ⟨g1, g2⟩ := ih p.1 p.2 hz
          subst hi; subst he
          exact ⟨by simpa using g1, g2⟩
      · obtain ⟨hi, he⟩ := Prod.mk.inj (Option.some.inj h)
        subst hi; subst he
        exact ⟨by simp, Bool.not_eq_true _ ▸ hm⟩
      · obtain ⟨hi, he⟩ := Prod.mk.inj (Option.some.inj h)
        subst hi; subst he
        exact ⟨by simp, Bool.not_eq_true _ ▸ hm⟩
      · obtain ⟨hi, he⟩ := Prod.mk.inj (Option.some.inj h)
        subst hi; subst he
        exact ⟨by simp, Bool.not_eq_true _ ▸ hm⟩
      · rcases hz : findFuzzy r es with _ | p
        · rw [hz] at h; simp at h
        · rw [hz] at h
          simp only [Option.map_some', Option.some.injEq] at h
          obtain ⟨hi, he⟩ := Prod.mk.inj h
          obtain ⟨g1, g2⟩ := ih p.1 p.2 hz
          subst hi; subst he
          exact ⟨by simpa using g1, g2⟩

/-- Marking an entry flips exactly its own `_alreadyMatched` flag. -/
theorem setMatched_getElem_self :
    ∀ (evals : List NodeEvaluation) (i : Nat),
      (setMatched evals i)[i]?
        = (evals[i]?).map fun e => { e with alreadyMatched := true } := by
  intro evals
  induction evals with
  | nil => intro i; simp [setMatched]
  | cons a es ih =>
      intro i
      cases i with
      | zero => simp [setMatched]
      | succ n => simpa [setMatched] using ih n

/-- Marking an entry leaves every other position unchanged. -/
theorem setMatched_getElem_ne :
    ∀ (evals : List NodeEvaluation) (i j : Nat), j ≠ i →
      (setMatched evals i)[j]? = evals[j]? := by
  intro evals
  induction evals with
  | nil => intro i j _; simp [setMatched]
  | cons a es ih =>
      intro i j hne
      cases i with
      | zero =>
          cases j with
          | zero => exact absurd rfl hne
          | succ m => simp [setMatched]
      | succ n =>
          cases j with
          | zero => simp [setMatched]
          | succ m =>
              have : m ≠ n := fun h => hne (by rw [h])
              simpa [setMatched] using ih n m this

/-- A mapping whose `mappedFrom` is set came from the fuzzy cascade, and the
call marked exactly the consumed entry. -/
theorem findNodeEval_fuzzy_inv (r f : String) (evals evals' : List NodeEvaluation)
    (m : MappingResult)
    (h : findNodeEvaluationWithMapping r evals = (some m, evals'))
    (hf : m.mappedFrom = some f) :
    findFuzzy r evals = some (m.index, m.evaluation)
      ∧ evals' = setMatched evals m.index := by
  unfold findNodeEvaluationWithMapping at h
  rcases he : findExact r evals with _ | p
  · rw [he] at h
    rcases hz : findFuzzy r evals with _ | q
    · rw [hz] at h; simp at h
    · rw [hz] at h
      obtain ⟨hm, hev⟩ := Prod.mk.inj h
      obtain rfl := Option.some.inj hm
      exact ⟨by simp [hz], hev.symm⟩
  · rw [he] at h
    obtain ⟨hm, _⟩ := Prod.mk.inj h
    obtain rfl := Option.some.inj hm
    simp at hf

/-- A consumed mark is never cleared by a later reconciliation call. -/
theorem findNodeEval_preserves_matched (r : String)
    (evals : List NodeEvaluation) (i : Nat) (e : NodeEvaluation)
    (hi : evals[i]? = some e) (he : e.alreadyMatched = true) :
    ∃ e', ((findNodeEvaluationWithMapping r evals).2)[i]? = some e'
      ∧ e'.alreadyMatched = true := by
  unfold findNodeEvaluationWithMapping
  rcases findExact r evals with _ | p
  · rcases hz : findFuzzy r evals with _ | q
    · exact ⟨e, hi, he⟩
    · by_cases hiq : i = q.1
      · subst hiq
        refine ⟨{ e with alreadyMatched := true }, ?_, rfl⟩
        rw [setMatched_getElem_self, hi]
        rfl
      · exact ⟨e, by rw [setMatched_getElem_ne _ _ _ hiq]; exact hi, he⟩
  · exact ⟨e, hi, he⟩

/-! Helper lemmas about chunking and batch evaluation. -/

/-- The reconciliation loop emits exactly one decision per requested id, in
submission order, each carrying the requested id. -/
theorem reconcileLoop_map_nodeId (ctx : TraversalContext) :
    ∀ (ids : List String) (evals : List NodeEvaluation),
      (reconcileLoop ctx ids evals).map TraversalDecision.nodeId = ids := by
  intro ids
  induction ids with
  | nil => intro evals; simp [reconcileLoop]
  | cons nodeId rest ih =>
      intro evals
      rcases h : findNodeEvaluationWithMapping nodeId evals with ⟨res, evals'⟩
      cases res with
      | none => simp [reconcileLoop, h, fallbackUnmapped, ih]
      | some r => simp [reconcileLoop, h, ih]

/-- Every decision of the reconciliation loop carries the context's current
depth. -/
theorem reconcileLoop_depth (ctx : TraversalContext) :
    ∀ (ids : List String) (evals : List NodeEvaluation)
      (dec : TraversalDecision), dec ∈ reconcileLoop ctx ids evals →
      dec.depth = ctx.currentDepth := by
  intro ids
  induction ids with
  | nil => intro evals dec h; simp [reconcileLoop] at h
  | cons nodeId rest ih =>
      intro evals dec h
      rcases he : findNodeEvaluationWithMapping nodeId evals with ⟨res, evals'⟩
      cases res with
      | none =>
          rw [reconcileLoop, he] at h
          rcases List.mem_cons.mp h with h0 | h0
          · rw [h0]; rfl
          · exact ih evals' dec h0
      | some r =>
          rw [reconcileLoop, he] at h
          rcases List.mem_cons.mp h with h0 | h0
          · rw [h0]
          · exact ih evals' dec h0

/-- One chunk evaluation emits exactly one decision per submitted id, in
submission order, each carrying the submitted id. -/
theorem evaluateBatchChunk_map_nodeId (tree : LegalDocumentTree) (o : Oracle)
    (ctx : TraversalContext) (nodeIds : List String) :
    (evaluateBatchChunk tree o ctx nodeIds).map TraversalDecision.nodeId
      = nodeIds := by
  unfold evaluateBatchChunk
  by_cases hv : (validNodeIds tree nodeIds).isEmpty
  · rw [if_pos hv, List.map_map]
    exact (List.map_congr_left fun id _ => rfl).trans (List.map_id _)
  · rw [if_neg hv]
    rcases ho : o ctx.decisions (validNodeIds tree nodeIds) with msg | evals
    · simp only [ho]
      rw [List.map_map]
      exact (List.map_congr_left fun id _ => rfl).trans (List.map_id _)
    · simp only [ho]
      exact reconcileLoop_map_nodeId ctx nodeIds evals

/-- Every decision of one chunk evaluation carries the context's current
depth. -/
theorem evaluateBatchChunk_depth (tree : LegalDocumentTree) (o : Oracle)
    (ctx : TraversalContext) (nodeIds : List String) (dec : TraversalDecision)
    (h : dec ∈ evaluateBatchChunk tree o ctx nodeIds) :
    dec.depth = ctx.currentDepth := by
  unfold evaluateBatchChunk at h
  by_cases hv : (validNodeIds tree nodeIds).isEmpty
  · rw [if_pos hv] at h
    obtain ⟨id, _, hd⟩ := List.mem_map.mp h
    rw [← hd]; rfl
  · rw [if_neg hv] at h
    rcases ho : o ctx.decisions (validNodeIds tree nodeIds) with msg | evals
    · rw [ho] at h
      obtain ⟨id, _, hd⟩ := List.mem_map.mp h
      rw [← hd]; rfl
    · rw [ho] at h
      exact reconcileLoop_depth ctx nodeIds evals dec h

theorem chunkListAux_nil (n fuel : Nat) : chunkListAux n fuel [] = [] := by
  cases fuel <;> rfl

/-- With fuel at least the list length, chunking then concatenating is the
identity. -/
theorem chunkListAux_flatten (n : Nat) :
    ∀ (fuel : Nat) (l : List String), l.length ≤ fuel →
      (chunkListAux (n + 1) fuel l).flatten = l := by
  intro fuel
  induction fuel with
  | zero =>
      intro l hl
      rw [List.length_eq_zero.mp (Nat.le_zero.mp hl)]
      rfl
  | succ f ih =>
      intro l hl
      cases l with
      | nil => rfl
      | cons x xs =>
          show ((x :: xs).take (n + 1) :: chunkListAux (n + 1) f
            ((x :: xs).drop (n + 1))).flatten = x :: xs
          rw [List.flatten_cons, ih ((x :: xs).drop (n + 1)) ?_,
            List.take_append_drop]
          rw [List.length_drop]
          have : xs.length ≤ f := Nat.le_of_succ_le_succ hl
          omega

/-- Every chunk has size at most `n + 1`. -/
theorem chunkListAux_size (n : Nat) :
    ∀ (fuel : Nat) (l : List String) (c : List String),
      c ∈ chunkListAux (n + 1) fuel l → c.length ≤ n + 1 := by
  intro fuel
  induction fuel with
  | zero => intro l c h; simp [chunkListAux] at h
  | succ f ih =>
      intro l c h
      cases l with
      | nil => simp [chunkListAux] at h
      | cons x xs =>
          rcases List.mem_cons.mp h with h0 | h0
          · rw [h0, List.length_take]
            exact min_le_left _ _
          · exact ih _ _ h0

theorem chunkList_flatten (l : List String) : (chunkList 5 l).flatten = l :=
  chunkListAux_flatten 4 l.length l le_rfl

theorem chunkList_size (l c : List String) (h : c ∈ chunkList 5 l) :
    c.length ≤ 5 :=
  chunkListAux_size 4 l.length l c h

/-- `batchEvaluateNodes` always equals the concatenation of the independent
per-chunk evaluations, also for small batches (which form a single chunk). -/
theorem batchEvaluateNodes_eq_flatten (tree : LegalDocumentTree) (o : Oracle)
    (ctx : TraversalContext) (nodeIds : List String) :
    batchEvaluateNodes tree o ctx nodeIds
      = ((chunkList 5 nodeIds).map (evaluateBatchChunk tree o ctx)).flatten := by
  unfold batchEvaluateNodes
  by_cases hlen : 5 < nodeIds.length
  · rw [if_pos hlen]
  · rw [if_neg hlen]
    cases nodeIds with
    | nil =>
        show evaluateBatchChunk tree o ctx [] = _
        simp [chunkList, chunkListAux, evaluateBatchChunk, validNodeIds]
    | cons x xs =>
        have hle : xs.length + 1 ≤ 5 := by
          have := Nat.not_lt.mp hlen
          simpa using this
        show evaluateBatchChunk tree o ctx (x :: xs)
          = ((chunkList 5 (x :: xs)).map (evaluateBatchChunk tree o ctx)).flatten
        have hchunks : chunkList 5 (x :: xs) = [x :: xs] := by
          show (x :: xs).take 5 :: chunkListAux 5 xs.length ((x :: xs).drop 5)
            = [x :: xs]
          rw [List.take_of_length_le (by simpa using hle),
            List.drop_eq_nil_of_le (by simpa using hle), chunkListAux_nil]
        rw [hchunks]
        simp

/-- Mapping the id projection over a concatenation of per-chunk results whose
ids are the chunks recovers the chunk concatenation. -/
theorem flatten_map_nodeId (L : List (List String))
    (f : List String → List TraversalDecision)
    (hf : ∀ c ∈ L, (f c).map TraversalDecision.nodeId = c) :
    ((L.map f).flatten).map TraversalDecision.nodeId = L.flatten := by
  induction L with
  | nil => rfl
  | cons c cs ih =>
      rw [List.map_cons, List.flatten_cons, List.map_append, List.flatten_cons,
        hf c (List.mem_cons_self c cs),
        ih fun d hd => hf d (List.mem_cons_of_mem c hd)]

/-- `batchEvaluateNodes` returns exactly one decision per submitted id, in
submission order. -/
theorem batchEvaluateNodes_map_nodeId (tree : LegalDocumentTree) (o : Oracle)
    (ctx : TraversalContext) (nodeIds : List String) :
    (batchEvaluateNodes tree o ctx nodeIds).map TraversalDecision.nodeId
      = nodeIds := by
  rw [batchEvaluateNodes_eq_flatten,
    flatten_map_nodeId _ _ fun c _ => evaluateBatchChunk_map_nodeId tree o ctx c,
    chunkList_flatten]

/-- Every decision of a batch evaluation carries the context's current
depth. -/
theorem batchEvaluateNodes_depth (tree : LegalDocumentTree) (o : Oracle)
    (ctx : TraversalContext) (nodeIds : List String) (dec : TraversalDecision)
    (h : dec ∈ batchEvaluateNodes tree o ctx nodeIds) :
    dec.depth = ctx.currentDepth := by
  rw [batchEvaluateNodes_eq_flatten] at h
  obtain ⟨s, hs, hd⟩ := List.mem_flatten.mp h
  obtain ⟨c, _, hc⟩ := List.mem_map.mp hs
  rw [← hc] at hd
  exact evaluateBatchChunk_depth tree o ctx c dec hd

/-! Helper lemmas about the traversal driver. -/

theorem processDecision_ctx_decisions (tree : LegalDocumentTree) (maxDepth : Nat)
    (relevanceThreshold : ℚ) (currentDepth : Nat) (st : LevelState)
    (decision : TraversalDecision) :
    (processDecision tree maxDepth relevanceThreshold currentDepth st
        decision).ctx.decisions
      = st.ctx.decisions ++ [decision] := rfl

theorem foldl_processDecision_decisions (tree : LegalDocumentTree)
    (maxDepth : Nat) (relevanceThreshold : ℚ) (currentDepth : Nat) :
    ∀ (decs : List TraversalDecision) (st : LevelState),
      (decs.foldl (processDecision tree maxDepth relevanceThreshold currentDepth)
          st).ctx.decisions
        = st.ctx.decisions ++ decs := by
  intro decs
  induction decs with
  | nil => intro st; simp
  | cons dec rest ih =>
      intro st
      rw [List.foldl_cons, ih, processDecision_ctx_decisions]
      simp

/-- Soundness invariant for the collected relevant nodes: each one is backed
by an already-recorded decision that exceeds the threshold and resolves to it
in the tree. -/
def RelSound (tree : LegalDocumentTree) (relevanceThreshold : ℚ)
    (st : LevelState) : Prop :=
  ∀ node ∈ st.relevantNodes, ∃ dec ∈ st.ctx.decisions,
    relevanceThreshold < dec.relevanceScore
      ∧ jsGet tree.nodes dec.nodeId = some node

theorem processDecision_relSound (tree : LegalDocumentTree) (maxDepth : Nat)
    (relevanceThreshold : ℚ) (currentDepth : Nat) (st : LevelState)
    (decision : TraversalDecision)
    (h : RelSound tree relevanceThreshold st) :
    RelSound tree relevanceThreshold
      (processDecision tree maxDepth relevanceThreshold currentDepth st
        decision) := by
  intro n hn
  have hrel : (processDecision tree maxDepth relevanceThreshold currentDepth st
        decision).relevantNodes
      = if relevanceThreshold < decision.relevanceScore then
          (match jsGet tree.nodes decision.nodeId with
            | some node => st.relevantNodes ++ [node]
            | none => st.relevantNodes)
        else st.relevantNodes := rfl
  rw [processDecision_ctx_decisions]
  rw [hrel] at hn
  by_cases hs : relevanceThreshold < decision.relevanceScore
  · rw [if_pos hs] at hn
    rcases hg : jsGet tree.nodes decision.nodeId with _ | node
    · simp only [hg] at hn
      obtain ⟨d0, hd0, hsc, hjs⟩ := h n hn
      exact ⟨d0, List.mem_append_left _ hd0, hsc, hjs⟩
    · simp only [hg] at hn
      rcases List.mem_append.mp hn with h0 | h0
      · obtain ⟨d0, hd0, hsc, hjs⟩ := h n h0
        exact ⟨d0, List.mem_append_left _ hd0, hsc, hjs⟩
      · have hnn : n = node := by simpa using h0
        exact ⟨decision, List.mem_append_right _ (by simp), hs, by rw [hg, hnn]⟩
  · rw [if_neg hs] at hn
    obtain ⟨d0, hd0, hsc, hjs⟩ := h n hn
    exact ⟨d0, List.mem_append_left _ hd0, hsc, hjs⟩

theorem foldl_processDecision_relSound (tree : LegalDocumentTree)
    (maxDepth : Nat) (relevanceThreshold : ℚ) (currentDepth : Nat) :
    ∀ (decs : List TraversalDecision) (st : LevelState),
      RelSound tree relevanceThreshold st →
      RelSound tree relevanceThreshold
        (decs.foldl (processDecision tree maxDepth relevanceThreshold
          currentDepth) st) := by
  intro decs
  induction decs with
  | nil => intro st h; exact h
  | cons dec rest ih =>
      intro st h
      rw [List.foldl_cons]
      exact ih _ (processDecision_relSound tree maxDepth relevanceThreshold
        currentDepth st dec h)

theorem levelStep_relSound (tree : LegalDocumentTree) (o : Oracle)
    (relevanceThreshold : ℚ) (maxDepth depth : Nat) (st : LevelState)
    (h : RelSound tree relevanceThreshold st) :
    RelSound tree relevanceThreshold
      (levelStep tree o relevanceThreshold maxDepth depth st) :=
  foldl_processDecision_relSound tree maxDepth relevanceThreshold depth _ _ h

theorem runLevels_relSound (tree : LegalDocumentTree) (o : Oracle)
    (relevanceThreshold : ℚ) (maxDepth : Nat) :
    ∀ (rem depth : Nat) (st : LevelState),
      RelSound tree relevanceThreshold st →
      RelSound tree relevanceThreshold
        (runLevels tree o relevanceThreshold maxDepth rem depth st) := by
  intro rem
  induction rem with
  | zero => intro depth st h; exact h
  | succ rem ih =>
      intro depth st h
      show RelSound tree relevanceThreshold
        (if (st.queue.filter fun q => q.2 == depth).isEmpty then st
          else runLevels tree o relevanceThreshold maxDepth rem (depth + 1)
            (levelStep tree o relevanceThreshold maxDepth depth st))
      split
      · exact h
      · exact ih _ _ (levelStep_relSound tree o relevanceThreshold maxDepth
          depth st h)

theorem levelStep_decisions (tree : LegalDocumentTree) (o : Oracle)
    (relevanceThreshold : ℚ) (maxDepth depth : Nat) (st : LevelState) :
    (levelStep tree o relevanceThreshold maxDepth depth st).ctx.decisions
      = st.ctx.decisions
        ++ batchEvaluateNodes tree o { st.ctx with currentDepth := depth }
            ((st.queue.filter fun q => q.2 == depth).map fun q => q.1) :=
  foldl_processDecision_decisions tree maxDepth relevanceThreshold depth _ _

theorem runLevels_depthBound (tree : LegalDocumentTree) (o : Oracle)
    (relevanceThreshold : ℚ) (maxDepth : Nat) :
    ∀ (rem depth : Nat) (st : LevelState),
      (∀ dec ∈ st.ctx.decisions, dec.depth < maxDepth) →
      depth + rem ≤ maxDepth →
      ∀ dec ∈ (runLevels tree o relevanceThreshold maxDepth rem depth
          st).ctx.decisions, dec.depth < maxDepth := by
  intro rem
  induction rem with
  | zero => intro depth st h _; exact h
  | succ rem ih =>
      intro depth st h hle
      show ∀ dec ∈ (if (st.queue.filter fun q => q.2 == depth).isEmpty then st
          else runLevels tree o relevanceThreshold maxDepth rem (depth + 1)
            (levelStep tree o relevanceThreshold maxDepth depth st)).ctx.decisions,
        dec.depth < maxDepth
      split
      · exact h
      · refine ih (depth + 1) _ ?_ (by omega)
        rw [levelStep_decisions]
        intro dec hdec
        rcases List.mem_append.mp hdec with h0 | h0
        · exact h dec h0
        · have hd : dec.depth = depth :=
            batchEvaluateNodes_depth tree o _ _ dec h0
          rw [hd]
          omega

/-! Claim theorems. -/

/-- C1, counterexample.  The requested ids `28 rules` and `28` are distinct,
yet, reconciled in submission order against a single received entry with id
`28`, both consume that same entry (position 0): the first via the
number-prefix strategy (which marks the entry used), the second via exact
match, which ignores the used mark.  This falsifies the claim that once a
received entry has been matched, the other requested id is never mapped to
the same entry. -/
theorem c1_counterexample :
    ("28 rules" : String) ≠ "28"
    ∧ (findNodeEvaluationWithMapping "28 rules" cexEvals).1.map
        MappingResult.index = some 0
    ∧ (findNodeEvaluationWithMapping "28"
        ((findNodeEvaluationWithMapping "28 rules" cexEvals).2)).1.map
        MappingResult.index = some 0 :=
  ⟨by decide, by decide, by decide⟩

/-- C1, amended.  Among the fuzzy strategies (number-prefix, key-phrase,
fuzzy string) each received entry is consumed at most once: a fuzzy match
marks the entry used, marks are never cleared, and fuzzy matching only
considers unmarked entries — so two fuzzy-strategy matches (recognisable by
`mappedFrom` being set) always consume distinct entries.  The exact-match
strategy, however, neither marks nor respects the mark, so an entry can be
consumed a second time through an exact match. -/
theorem c1_amended :
    (∀ (r1 r2 : String) (evals evals1 evals2 : List NodeEvaluation)
        (m1 m2 : MappingResult) (f1 f2 : String),
        findNodeEvaluationWithMapping r1 evals = (some m1, evals1) →
        m1.mappedFrom = some f1 →
        findNodeEvaluationWithMapping r2 evals1 = (some m2, evals2) →
        m2.mappedFrom = some f2 →
        m1.index ≠ m2.index)
    ∧ (∀ (r : String) (evals : List NodeEvaluation) (i : Nat)
        (e : NodeEvaluation),
        evals[i]? = some e → e.alreadyMatched = true →
        ∃ e', ((findNodeEvaluationWithMapping r evals).2)[i]? = some e'
          ∧ e'.alreadyMatched = true)
    ∧ (∀ (r : String) (evals evals' : List NodeEvaluation)
        (m : MappingResult) (f : String),
        findNodeEvaluationWithMapping r evals = (some m, evals') →
        m.mappedFrom = some f →
        (∃ e, evals[m.index]? = some e ∧ e.alreadyMatched = false)
          ∧ ∃ e', evals'[m.index]? = some e' ∧ e'.alreadyMatched = true) := by
  refine ⟨?_, ?_, ?_⟩
  · intro r1 r2 evals evals1 evals2 m1 m2 f1 f2 h1 hf1 h2 hf2 heq
    obtain ⟨hz1, hset1⟩ := findNodeEval_fuzzy_inv r1 f1 evals evals1 m1 h1 hf1
    obtain ⟨hz2, hset2⟩ := findNodeEval_fuzzy_inv r2 f2 evals1 evals2 m2 h2 hf2
    obtain ⟨hg1, _⟩ := findFuzzy_eq_some r1 evals m1.index m1.evaluation hz1
    obtain ⟨hg2, hfresh2⟩ := findFuzzy_eq_some r2 evals1 m2.index m2.evaluation hz2
    rw [← heq, hset1, setMatched_getElem_self, hg1] at hg2
    have : m2.evaluation.alreadyMatched = true := by
      have he := Option.some.inj hg2
      rw [← he]
    rw [this] at hfresh2
    exact Bool.true_eq_false ▸ hfresh2
  · intro r evals i e hi he
    exact findNodeEval_preserves_matched r evals i e hi he
  · intro r evals evals' m f h hf
    obtain ⟨hz, hset⟩ := findNodeEval_fuzzy_inv r f evals evals' m h hf
    obtain ⟨hg, hfresh⟩ := findFuzzy_eq_some r evals m.index m.evaluation hz
    refine ⟨⟨m.evaluation, hg, hfresh⟩,
      ⟨{ m.evaluation with alreadyMatched := true }, ?_, rfl⟩⟩
    rw [hset, setMatched_getElem_self, hg]
    rfl

/-- C2, counterexample.  A flat array with two items of id `a` produces a
single node: the second item's content overwrites the first (content `one`
is dropped), and no suffixed id `a_2` is generated — so the claim that flat
inputs get unique suffixed ids with both contents preserved fails. -/
theorem c2_counterexample :
    (jsGet (transformRawDocument (RawDoc.flatArray [dupItemA, dupItemB])).nodes
        "a").map LegalNode.content = some "two"
    ∧ jsGet (transformRawDocument
        (RawDoc.flatArray [dupItemA, dupItemB])).nodes "a_2" = none
    ∧ (transformRawDocument (RawDoc.flatArray [dupItemA, dupItemB])).nodes.length
        = 1 :=
  ⟨by decide, by decide, by decide⟩

/-- C2, amended.  On a flat array input `transformRawDocument` performs no
duplicate-id suffixing at all: the nodes map binds each id to the node built
from the last array item whose computed id is that id, so when two items
collide the later one overwrites the earlier and the earlier item's content
is dropped.  (Unique suffix generation exists only in the agent-results
branch of the source.) -/
theorem c2_amended (items : List RawArrayItem) (nid : String) :
    jsGet (transformRawDocument (RawDoc.flatArray items)).nodes nid
      = (items.enum.reverse.find? fun p => flatArrayNodeId p.1 p.2 == nid).map
          fun p => nodeFromArrayItem p.1 p.2 := by
  show jsGet (processFlatArrayAux items.enum [] []).1 nid = _
  rw [processFlatArrayAux_jsGet]
  show ((items.enum.reverse.find? fun p => flatArrayNodeId p.1 p.2 == nid).map
    fun p => nodeFromArrayItem p.1 p.2).or none = _
  cases items.enum.reverse.find? fun p => flatArrayNodeId p.1 p.2 == nid <;>
    simp [Option.or]

/-- C3, counterexample.  For requested id `refund` and received id
`refund policy` exactly one key word overlaps, which is below the claimed
minimum of two, yet the key-phrase strategy declares a match (the code takes
the disjunction of the 50%-ratio test and the two-word minimum, not their
conjunction). -/
theorem c3_counterexample :
    matchesKeyPhrases "refund" "refund policy" = true
    ∧ (commonKeyWords "refund" "refund policy").length = 1 := by
  constructor
  · have hc : commonKeyWords "refund" "refund policy" = ["refund"] := by decide
    have hk : (keyWordsOf "refund").length = 1 := by decide
    simp only [matchesKeyPhrases, hc, hk]
    norm_num
  · have hc : commonKeyWords "refund" "refund policy" = ["refund"] := by decide
    rw [hc]
    rfl

/-- C3, amended.  The key-phrase strategy matches if and only if at least
50% of the requested id's key words overlap OR at least two words overlap (a
disjunction, not the claimed conjunction with a minimum of two); the ratio's
denominator is clamped to at least 1. -/
theorem c3_amended (expectedNodeId receivedNodeId : String) :
    matchesKeyPhrases expectedNodeId receivedNodeId = true ↔
      (max (keyWordsOf expectedNodeId).length 1
          ≤ 2 * (commonKeyWords expectedNodeId receivedNodeId).length
        ∨ 2 ≤ (commonKeyWords expectedNodeId receivedNodeId).length) := by
  have hpos : (0 : ℚ) < (max (keyWordsOf expectedNodeId).length 1 : ℚ) := by
    have h1 : (1 : Nat) ≤ max (keyWordsOf expectedNodeId).length 1 :=
      le_max_right _ _
    exact_mod_cast Nat.lt_of_lt_of_le Nat.zero_lt_one h1
  have hbr : (1 / 2 : ℚ)
        ≤ ((commonKeyWords expectedNodeId receivedNodeId).length : ℚ)
          / (max (keyWordsOf expectedNodeId).length 1 : ℚ) ↔
      max (keyWordsOf expectedNodeId).length 1
        ≤ 2 * (commonKeyWords expectedNodeId receivedNodeId).length := by
    rw [le_div_iff₀ hpos]
    constructor
    · intro h
      have h2 : (max (keyWordsOf expectedNodeId).length 1 : ℚ)
          ≤ 2 * (commonKeyWords expectedNodeId receivedNodeId).length := by
        linarith
      exact_mod_cast h2
    · intro h
      have h2 : (max (keyWordsOf expectedNodeId).length 1 : ℚ)
          ≤ 2 * (commonKeyWords expectedNodeId receivedNodeId).length := by
        exact_mod_cast h
      linarith
  simp only [matchesKeyPhrases, Bool.or_eq_true, decide_eq_true_eq, ge_iff_le]
  rw [hbr]

/-- C4.  When the oracle invocation of a chunk with at least one valid id
fails, the chunk's evaluation is exactly one fallback decision per submitted
id, each with `visited = false` and `relevanceScore = 0`; the whole batch is
always the concatenation of the independent per-chunk evaluations, so the
other chunks are unaffected, and `batchEvaluateNodes` is a total function —
the failure never escapes the traversal. -/
theorem c4_oracle_failure_contained (tree : LegalDocumentTree) (o : Oracle)
    (ctx : TraversalContext) (nodeIds chunk : List String) (msg : String)
    (_hchunk : chunk ∈ chunkList 5 nodeIds)
    (hvalid : (validNodeIds tree chunk).isEmpty = false)
    (hfail : o ctx.decisions (validNodeIds tree chunk) = Except.error msg) :
    evaluateBatchChunk tree o ctx chunk = chunk.map (fallbackError ctx)
    ∧ (∀ dec ∈ evaluateBatchChunk tree o ctx chunk,
        dec.visited = false ∧ dec.relevanceScore = 0)
    ∧ batchEvaluateNodes tree o ctx nodeIds
        = ((chunkList 5 nodeIds).map (evaluateBatchChunk tree o ctx)).flatten := by
  have heq : evaluateBatchChunk tree o ctx chunk
      = chunk.map (fallbackError ctx) := by
    unfold evaluateBatchChunk
    rw [if_neg (by rw [hvalid]; exact Bool.false_ne_true)]
    rw [hfail]
  refine ⟨heq, ?_, batchEvaluateNodes_eq_flatten tree o ctx nodeIds⟩
  intro dec hdec
  rw [heq] at hdec
  obtain ⟨id, _, hid⟩ := List.mem_map.mp hdec
  rw [← hid]
  exact ⟨rfl, rfl⟩

/-- C4, witness: a failing oracle on the single-chunk batch `[a]` of the
sample tree yields exactly the error fallback decision. -/
theorem c4_witness :
    evaluateBatchChunk sampleTree failingOracle initCtx ["a"]
      = ["a"].map (fallbackError initCtx) :=
  (c4_oracle_failure_contained sampleTree failingOracle initCtx ["a"] ["a"]
    "rate limit" (by decide) (by decide) rfl).1

/-- C5.  Batch evaluation returns exactly one decision per submitted id, in
submission order (its id projection is the submitted list, hence
`|result| = |ids|`); the chunking of a batch produces chunks of size at most
`MAX_BATCH_SIZE = 5` whose in-order concatenation is the submitted list, and
twelve ids yield chunks of sizes 5, 5, 2. -/
theorem c5_batch_shape (tree : LegalDocumentTree) (o : Oracle)
    (ctx : TraversalContext) (nodeIds : List String) :
    (batchEvaluateNodes tree o ctx nodeIds).map TraversalDecision.nodeId
        = nodeIds
    ∧ (∀ chunk ∈ chunkList 5 nodeIds, chunk.length ≤ 5)
    ∧ (chunkList 5 nodeIds).flatten = nodeIds
    ∧ (chunkList 5 twelveIds).map List.length = [5, 5, 2] :=
  ⟨batchEvaluateNodes_map_nodeId tree o ctx nodeIds,
    fun chunk hc => chunkList_size nodeIds chunk hc,
    chunkList_flatten nodeIds,
    by decide⟩

/-- C6.  Every node of a completed run's `relevantNodes` is backed by a
decision in `traversalPath` whose score strictly exceeds the threshold and
whose id resolves to that node in the tree's node map — the same map the
route returns to the caller as `documentNodes`. -/
theorem c6_relevant_nodes_sound (tree : LegalDocumentTree) (o : Oracle)
    (relevanceThreshold : ℚ) (maxDepth : Nat) (node : LegalNode)
    (h : node ∈ (traverseDocument tree o relevanceThreshold
        maxDepth).relevantNodes) :
    ∃ dec ∈ (traverseDocument tree o relevanceThreshold maxDepth).traversalPath,
      relevanceThreshold < dec.relevanceScore
        ∧ jsGet tree.nodes dec.nodeId = some node := by
  have h0 : RelSound tree relevanceThreshold
      { queue := tree.rootNodes.map fun id => (id, 0)
        ctx := { visitedNodes := [], decisions := [], currentDepth := 0 }
        relevantNodes := [] } := by
    intro n hn
    simp at hn
  exact runLevels_relSound tree o relevanceThreshold maxDepth maxDepth 0 _ h0
    node h

/-- C6, witness: the sample run includes node `a` with its above-threshold
decision. -/
theorem c6_witness :
    sampleNode ∈ (traverseDocument sampleTree sampleOracle 0 8).relevantNodes
    ∧ ∃ dec ∈ (traverseDocument sampleTree sampleOracle 0 8).traversalPath,
        (0 : ℚ) < dec.relevanceScore
          ∧ jsGet sampleTree.nodes dec.nodeId = some sampleNode :=
  ⟨by decide,
    c6_relevant_nodes_sound sampleTree sampleOracle 0 8 sampleNode (by decide)⟩

/-- C7.  The level loop runs depths `0 .. maxDepth - 1` and children are
only enqueued at `depth + 1` when that is still below `maxDepth`, so every
decision of a traversal has depth strictly below `maxDepth` (at most
`maxDepth - 1`). -/
theorem c7_depth_bound (tree : LegalDocumentTree) (o : Oracle)
    (relevanceThreshold : ℚ) (maxDepth : Nat) (dec : TraversalDecision)
    (h : dec ∈ (traverseDocument tree o relevanceThreshold
        maxDepth).traversalPath) :
    dec.depth < maxDepth := by
  refine runLevels_depthBound tree o relevanceThreshold maxDepth maxDepth 0
    { queue := tree.rootNodes.map fun id => (id, 0)
      ctx := { visitedNodes := [], decisions := [], currentDepth := 0 }
      relevantNodes := [] } ?_ (by omega) dec h
  intro d hd
  simp at hd

/-- C7, witness: the sample run's sole decision sits at depth 0 < 8. -/
theorem c7_witness :
    sampleDecision ∈ (traverseDocument sampleTree sampleOracle 0 8).traversalPath
    ∧ sampleDecision.depth < 8 :=
  ⟨by decide,
    c7_depth_bound sampleTree sampleOracle 0 8 sampleDecision (by decide)⟩

/-- C8, counterexample.  The tree whose only node `a` lists itself as a
child has a cycle (violating the structural invariants), yet
`validateDocumentTree` accepts it — so the claim that the validator rejects
every tree violating I1–I5 fails. -/
theorem c8_counterexample :
    validateDocumentTree cyclicTree = true
    ∧ (jsGet cyclicTree.nodes "a").map LegalNode.children = some ["a"] :=
  ⟨by decide, by decide⟩

/-- C8, amended.  The validator checks exactly: root list non-empty, every
root id resolves, and every child reference resolves.  It therefore rejects
a missing root or a dangling child, but does not detect cycles (nor
duplicate ids or depth inconsistencies). -/
theorem c8_amended (tree : LegalDocumentTree) :
    validateDocumentTree tree = true ↔
      (tree.rootNodes ≠ []
        ∧ (∀ rootId ∈ tree.rootNodes, (jsGet tree.nodes rootId).isSome = true)
        ∧ ∀ p ∈ tree.nodes, ∀ childId ∈ p.2.children,
            (jsGet tree.nodes childId).isSome = true) := by
  have hAllKids : (tree.nodes.all fun p => p.2.children.all fun childId =>
        (jsGet tree.nodes childId).isSome) = true ↔
      ∀ p ∈ tree.nodes, ∀ childId ∈ p.2.children,
        (jsGet tree.nodes childId).isSome = true := by
    rw [List.all_eq_true]
    constructor
    · intro h p hp c hc
      exact List.all_eq_true.mp (h p hp) c hc
    · intro h p hp
      exact List.all_eq_true.mpr (h p hp)
  unfold validateDocumentTree
  by_cases h1 : tree.rootNodes.isEmpty = true
  · rw [if_pos h1]
    simp [List.isEmpty_iff.mp h1]
  · have h1' : tree.rootNodes ≠ [] := fun he => h1 (by rw [he]; rfl)
    by_cases h2 : (tree.rootNodes.all fun rootId =>
        (jsGet tree.nodes rootId).isSome) = true
    · by_cases h3 : (tree.nodes.all fun p => p.2.children.all fun childId =>
          (jsGet tree.nodes childId).isSome) = true
      · rw [if_neg h1, if_neg (by rw [h2]; exact Bool.false_ne_true),
          if_neg (by rw [h3]; exact Bool.false_ne_true)]
        constructor
        · intro _
          exact ⟨h1', List.all_eq_true.mp h2, hAllKids.mp h3⟩
        · intro _
          rfl
      · have h3f := Bool.not_eq_true _ ▸ h3
        rw [if_neg h1, if_neg (by rw [h2]; exact Bool.false_ne_true),
          if_pos (by rw [h3f]; rfl)]
        simp only [Bool.false_eq_true, false_iff]
        intro hc
        exact h3 (hAllKids.mpr hc.2.2)
    · have h2f := Bool.not_eq_true _ ▸ h2
      rw [if_neg h1, if_pos (by rw [h2f]; rfl)]
      simp only [Bool.false_eq_true, false_iff]
      intro hc
      exact h2 (List.all_eq_true.mpr hc.2.1)

/-- C9.  Normalising an input that already has both a nodes mapping and a
rootNodes list is the identity: `transformRawDocument` passes it through
unchanged. -/
theorem c9_canonical_identity (nodes : List (String × LegalNode))
    (rootNodes : List String) :
    transformRawDocument (RawDoc.canonical nodes rootNodes)
      = ⟨nodes, rootNodes⟩ := rfl

/-- C10, counterexample.  If a readable cache file from an earlier run still
exists when a later write fails, the memory fallback is shadowed: storing
`newResult` with a failing write leaves the old file in place and a
subsequent read returns the stale file contents, not the result just
stored — contradicting the claim that the subsequent read returns that
result. -/
theorem c10_counterexample :
    getLatestTraversalResult
        (setLatestTraversalResult "newResult" false
          { cacheFile := some "oldResult", memorySlot := none })
      = some "oldResult"
    ∧ ("oldResult" : String) ≠ "newResult" :=
  ⟨rfl, by decide⟩

/-- C10, amended.  On a write failure the result goes to the memory slot and
the cache file is left as it was; a subsequent read returns that result
provided no readable cache file exists (a stale readable file wins
otherwise); and a read returns null only when neither the cache file nor the
memory slot holds a result. -/
theorem c10_store_fallback :
    (∀ (s : TraversalStateStore) (result : String),
        (setLatestTraversalResult result false s).memorySlot = some result
          ∧ (setLatestTraversalResult result false s).cacheFile = s.cacheFile)
    ∧ (∀ (s : TraversalStateStore) (result : String), s.cacheFile = none →
        getLatestTraversalResult (setLatestTraversalResult result false s)
          = some result)
    ∧ ∀ s : TraversalStateStore, getLatestTraversalResult s = none →
        s.cacheFile = none ∧ s.memorySlot = none := by
  refine ⟨fun s result => ⟨rfl, rfl⟩, ?_, ?_⟩
  · intro s result hfile
    unfold getLatestTraversalResult setLatestTraversalResult
    rw [if_neg Bool.false_ne_true]
    simp [hfile]
  · intro s h
    unfold getLatestTraversalResult at h
    rcases hc : s.cacheFile with _ | data
    · rw [hc] at h
      exact ⟨rfl, h⟩
    · rw [hc] at h
      exact absurd h (by simp)

end KnowYourRights
